import Mathlib

/-!
Shallow embedding of `scripts/list_pubs.py`, a BibTeX-to-Markdown publication
renderer.  Python strings are modelled as Lean `String` values, and the Python
string primitives the script uses (`strip`, `lower`, `startswith`, `split`,
`replace`, `in`, `join`) are embedded as structurally recursive functions on
`List Char`, so every definition evaluates by kernel reduction.  `print` is
modelled by appending the printed string plus one newline character to the
output text.  File existence and the result of the external `pybtex` parser
are passed to `render_pubs` as explicit inputs: they are the I/O and
third-party boundary of the script.
-/

/-- Characters Python's `str.strip()` removes (the ASCII whitespace set). -/
def isPySpace (c : Char) : Bool :=
  c.toNat == 32 || c.toNat == 9 || c.toNat == 10 || c.toNat == 13 ||
    c.toNat == 11 || c.toNat == 12

/-- Remove `isPySpace` characters from both ends of a character list. -/
def stripList (l : List Char) : List Char :=
  ((l.dropWhile isPySpace).reverse.dropWhile isPySpace).reverse

/-- Python `s.strip()`. -/
def pyStrip (s : String) : String := ⟨stripList s.data⟩

/-- Python `s.lower()` (ASCII letters; the script only compares ASCII text). -/
def pyLower (s : String) : String := ⟨s.data.map Char.toLower⟩

/-- Python `s.startswith(p)`. -/
def pyStartsWith (s p : String) : Bool := p.data.isPrefixOf s.data

/-- Python `p in s` (contiguous substring test) on character lists. -/
def infixOf : List Char → List Char → Bool
  | p, [] => p.isEmpty
  | p, c :: cs => p.isPrefixOf (c :: cs) || infixOf p cs

/-- Python `p in s` for strings. -/
def pyIn (p s : String) : Bool := infixOf p.data s.data

/-- Python `stripped.split("=")[0].strip()`: the text before the first `=`,
stripped.  (`split` with no bound yields the whole string as component 0 when
the separator is absent, exactly as `takeWhile` does.) -/
def fieldPartOf (stripped : String) : String :=
  ⟨stripList (stripped.data.takeWhile (fun c => !(c == '=')))⟩

/-- Replacement scan for Python `str.replace`, bounded by explicit fuel so the
recursion is structural (the fuel is at least the list length at every call,
and each step consumes at least one character). -/
def pyReplaceFuel (pat rep : List Char) : Nat → List Char → List Char
  | _, [] => []
  | 0, l => l
  | fuel + 1, c :: cs =>
    if !pat.isEmpty && pat.isPrefixOf (c :: cs) then
      rep ++ pyReplaceFuel pat rep fuel (List.drop pat.length (c :: cs))
    else c :: pyReplaceFuel pat rep fuel cs

/-- Python `s.replace(pat, rep)`: every occurrence of `pat`, scanned left to
right and non-overlapping, is replaced by `rep` (the script only calls this
with non-empty patterns). -/
def pyReplace (s pat rep : String) : String :=
  ⟨pyReplaceFuel pat.data rep.data s.data.length s.data⟩

/-- The line whose stripped, lowercased text starts with `@`: it begins a new
entry in `clean_and_parse`. -/
def isAtLine (line : String) : Bool := pyStartsWith (pyLower (pyStrip line)) "@"

/-- The line `clean_and_parse` treats as a `doi` field line: its stripped,
lowercased text contains `=` and the text before the first `=` strips to
`doi`. -/
def isDoiLine (line : String) : Bool :=
  (pyLower (pyStrip line)).data.contains '=' &&
    fieldPartOf (pyLower (pyStrip line)) == "doi"

/-- The line scan of `clean_and_parse`: argument order is the remaining input
lines, then `seen_fields`, then `inside_entry`; the result is the emitted
lines together with the final `seen_fields` and `inside_entry` state.  The
Python `set` is modelled as a list of field names, membership and insertion
being the only operations used. -/
def cleanGo : List String → List String → Bool → List String × List String × Bool
  | [], seen, inside => ([], seen, inside)
  | line :: rest, seen, inside =>
    let stripped := pyLower (pyStrip line)
    if pyStartsWith stripped "@" then
      let r := cleanGo rest [] true
      (line :: r.1, r.2)
    else if inside && stripped.data.contains '=' && fieldPartOf stripped == "doi" then
      if seen.contains "doi" then cleanGo rest seen inside
      else
        let r := cleanGo rest ("doi" :: seen) inside
        (line :: r.1, r.2)
    else
      let r := cleanGo rest seen inside
      (line :: r.1, r.2)

/-- The text-cleanup half of `clean_and_parse`: the lines handed on to the
parser. -/
def cleanedLines (lines : List String) : List String := (cleanGo lines [] false).1

/-- Per-entry duplicate-doi removal with a single seen flag: the reference
shape the scan is proved equal to on the body of one entry. -/
def dedupDoi : Bool → List String → List String
  | _, [] => []
  | seen, l :: rest =>
    if isDoiLine l then
      if seen then dedupDoi seen rest else l :: dedupDoi true rest
    else l :: dedupDoi seen rest

/-- The raw right-hand side of a field line: the text after the first `=`,
stripped. -/
def doiRawValue (line : String) : String :=
  pyStrip ⟨(line.data.dropWhile (fun c => !(c == '='))).drop 1⟩

/-- Modelled from the spec: the external BibTeX parser
(`pybtex.database.parse_string`) is not part of this repository.  The spec
records that a field repeated inside one entry is a hard parse error, and that
otherwise a field takes the value of its unique field line.  This models the
doi outcome of parsing one entry body: an error when two or more `doi` field
lines remain, otherwise the raw value of the unique `doi` line, if any. -/
def parseEntryDoi (body : List String) : Except String (Option String) :=
  match body.filter (fun l => isDoiLine l) with
  | [] => Except.ok none
  | [l] => Except.ok (some (doiRawValue l))
  | _ => Except.error "repeated field: doi"

/-- One author record of a parsed entry (`pybtex` person). -/
structure Person where
  first_names : List String
  last_names : List String
deriving DecidableEq

/-- One parsed bibliography entry: type tag, field mapping and person
mapping.  The `pybtex` mappings are modelled as association lists; lookup
takes the first binding, as a dict with unique keys does. -/
structure Entry where
  type : String
  fields : List (String × String)
  persons : List (String × List Person)
deriving DecidableEq

/-- Python `fields.get(name, dflt)`. -/
def fieldsGet (fields : List (String × String)) (name dflt : String) : String :=
  match fields.find? (fun p => p.1 == name) with
  | some p => p.2
  | none => dflt

/-- Field presence: `some` value when the field has a binding. -/
def fieldLookup (fields : List (String × String)) (name : String) : Option String :=
  (fields.find? (fun p => p.1 == name)).map (fun p => p.2)

/-- Python `entry.persons.get(name, [])`. -/
def personsGet (persons : List (String × List Person)) (name : String) : List Person :=
  match persons.find? (fun p => p.1 == name) with
  | some p => p.2
  | none => []

/-- Python truthiness of the optional highlight string: `None` and the empty
string are falsy. -/
def truthy : Option String → Bool
  | none => false
  | some s => !(s == "")

/-- One author name as the renderer formats it, bold-wrapped when the
highlight token is truthy and a substring of the name. -/
def formatName (author_highlight : Option String) (person : Person) : String :=
  let fname := person.first_names.headD ""
  let lname := person.last_names.headD ""
  let name := pyStrip (fname ++ " " ++ lname)
  if truthy author_highlight && pyIn (author_highlight.getD "") name then
    "**" ++ name ++ "**"
  else name

/-- The venue fallback chain of the renderer. -/
def venueOf (fields : List (String × String)) : String :=
  fieldsGet fields "journal" (fieldsGet fields "booktitle"
    (fieldsGet fields "publisher" (fieldsGet fields "school" "Preprint")))

/-- The literal DOI prefix the renderer removes from the doi value. -/
def doiOrgPre : String := "https://doi.org/"

/-- The optional DOI link segment of one rendered line. -/
def doiSegOf (fields : List (String × String)) : String :=
  let doi := fieldsGet fields "doi" ""
  if doi == "" then ""
  else " [[Link](https://doi.org/" ++ pyReplace doi doiOrgPre "" ++ ")]"

/-- Title cleanup: both brace characters removed everywhere. -/
def stripBraces (s : String) : String :=
  pyReplace (pyReplace s "\x7b" "") "\x7d" ""

/-- One printed entry line (with the newline `print` appends). -/
def renderLine (hl : Option String) (e : Entry) : String :=
  let year := fieldsGet e.fields "year" "n.d."
  let title := stripBraces (fieldsGet e.fields "title" "Untitled")
  let venue := venueOf e.fields
  let doiStr := doiSegOf e.fields
  let authors := (personsGet e.persons "author").map (formatName hl)
  "1. " ++ String.intercalate ", " authors ++ " (" ++ year ++ "). **" ++ title ++
    ".** *" ++ venue ++ "*." ++ doiStr ++ "\n"

/-- Strict lexicographic comparison of character lists by code point, the
order Python uses on strings. -/
def lexLt : List Char → List Char → Bool
  | _, [] => false
  | [], _ :: _ => true
  | a :: as, b :: bs => Nat.blt a.toNat b.toNat || (Nat.beq a.toNat b.toNat && lexLt as bs)

/-- Python `a < b` on strings. -/
def strLt (a b : String) : Bool := lexLt a.data b.data

/-- Python `a >= b` on strings. -/
def strGe (a b : String) : Bool := !(strLt a b)

/-- The sort key of `render_pubs`: the `year` field, else `"0000"`. -/
def yearKey (e : Entry) : String := fieldsGet e.fields "year" "0000"

instance decRelYearGe :
    DecidableRel (fun (a b : String × Entry) => strGe (yearKey a.2) (yearKey b.2) = true) :=
  fun _ _ => instDecidableEqBool _ _

/-- `sorted(bib_data.entries.items(), key=year-or-0000, reverse=True)`: a
stable sort placing an entry before another exactly when its key is not
smaller, which is what Python's stable descending sort produces. -/
def sortedByYear (entries : List (String × Entry)) : List (String × Entry) :=
  List.insertionSort (fun a b => strGe (yearKey a.2) (yearKey b.2) = true) entries

/-- The fixed category table, in iteration order. -/
def categories : List (String × List String) :=
  [("Journal Articles", ["article"]),
   ("Conference Papers", ["inproceedings", "proceedings"]),
   ("Books and Chapters", ["book", "incollection"]),
   ("Theses", ["phdthesis", "mastersthesis"])]

/-- The sorted entries whose lowercased type tag is in the given accepted
set. -/
def catEntries (entries : List (String × Entry)) (types : List String) :
    List (String × Entry) :=
  (sortedByYear entries).filter (fun e => types.contains (pyLower e.2.type))

/-- The text one category contributes: nothing when no entry matches, else
the heading line, the entry lines, and the section separator `print("\n")`,
which emits two newline characters. -/
def renderCategory (hl : Option String) (entries : List (String × Entry))
    (cat : String × List String) : String :=
  let catE := catEntries entries cat.2
  if catE.isEmpty then ""
  else "### " ++ cat.1 ++ "\n" ++
    String.join (catE.map (fun ke => renderLine hl ke.2)) ++ "\n\n"

/-- `render_pubs`, with the I/O boundary explicit: whether the file exists and
the outcome of `clean_and_parse` (the `pybtex` parse of the sanitized text)
are inputs, and the return value is the text printed to standard output.  The
embedding is a total function: every branch of the source ends in prints and
a normal return. -/
def render_pubs (bibFileExists : Bool) (bibFile : String)
    (parsed : Except String (List (String × Entry)))
    (author_highlight : Option String) : String :=
  if !bibFileExists then
    "**Error:** Could not find bibliography file: `" ++ bibFile ++ "`\n"
  else
    match parsed with
    | Except.error e => "**Error parsing bib file:** " ++ e ++ "\n"
    | Except.ok entries =>
        String.join (categories.map (renderCategory author_highlight entries))

/-- The category output of a successful parse, named for the statements. -/
def renderEntries (entries : List (String × Entry)) (hl : Option String) : String :=
  String.join (categories.map (renderCategory hl entries))

/-- The double-quote character. -/
def dquote : Char := Char.ofNat 34

/-- The single-quote character. -/
def squote : Char := Char.ofNat 39

/-- Python `s.strip(c)` for a one-character set: remove every leading and
every trailing occurrence of `c`. -/
def pyStripChar (c : Char) (l : List Char) : List Char :=
  ((l.dropWhile (fun x => x == c)).reverse.dropWhile (fun x => x == c)).reverse

/-- The venue rule in the spec's words, for comparison with the nested-default
lookups of the source: the value of the first field present in the priority
list, else nothing. -/
def firstPresent (fields : List (String × String)) : List String → Option String
  | [] => none
  | n :: ns =>
    match fields.find? (fun p => p.1 == n) with
    | some p => some p.2
    | none => firstPresent fields ns

/-- The title value extracted from a matching front-matter line:
`line.split(":", 1)[1].strip().strip(dquote).strip(squote)`. -/
def titleValueOf (line : String) : String :=
  ⟨pyStripChar squote (pyStripChar dquote
      (stripList ((line.data.dropWhile (fun c => !(c == ':'))).drop 1)))⟩

/-- `get_current_page_title`, applied to the lines of the first markup file:
the first line whose stripped text starts with `title:` yields the processed
title value, else the result is `None`. -/
def get_current_page_title (lines : List String) : Option String :=
  match lines.find? (fun l => pyStartsWith (pyStrip l) "title:") with
  | none => none
  | some line => some (titleValueOf line)

example : pyStrip "  abc " = "abc" := by decide
example : pyLower "AbC" = "abc" := by decide
example : isAtLine "  @ARTICLE\x7bx," = true := by decide
example : isDoiLine " DOI = \x7b10.1/x\x7d," = true := by decide
example : isDoiLine "year = 2020," = false := by decide
example : cleanedLines ["@a\x7bk,", "doi = 1,", "doi = 2,"] = ["@a\x7bk,", "doi = 1,"] := by decide
example : pyReplace "ahttps://doi.org/b" "https://doi.org/" "" = "ab" := by decide
example : stripBraces "A \x7bStudy\x7d" = "A Study" := by decide
example : get_current_page_title ["x: y", "title: \"\"Hello\"\""] = some "Hello" := by decide
example : strLt "1999" "2020" = true := by decide

theorem cleanGo_append (xs : List String) : ∀ (ys seen : List String) (inside : Bool),
    cleanGo (xs ++ ys) seen inside =
      ((cleanGo xs seen inside).1 ++
        (cleanGo ys (cleanGo xs seen inside).2.1 (cleanGo xs seen inside).2.2).1,
       (cleanGo ys (cleanGo xs seen inside).2.1 (cleanGo xs seen inside).2.2).2) := by
  induction xs with
  | nil => intro ys seen inside; simp [cleanGo]
  | cons x xs ih =>
    intro ys seen inside
    by_cases hA : pyStartsWith (pyLower (pyStrip x)) "@" = true
    · simp [cleanGo, hA, ih]
    · by_cases hE : '=' ∈ (pyLower (pyStrip x)).data
      · by_cases hF : fieldPartOf (pyLower (pyStrip x)) = "doi"
        · cases inside with
          | false => simp [cleanGo, hA, hE, hF, ih]
          | true =>
            by_cases hS : "doi" ∈ seen
            · simp [cleanGo, hA, hE, hF, hS, ih]
            · simp [cleanGo, hA, hE, hF, hS, ih]
        · simp [cleanGo, hA, hE, hF, ih]
      · simp [cleanGo, hA, hE, ih]

theorem cleanGo_block (body : List String) : ∀ (seen : List String),
    (∀ l ∈ body, isAtLine l = false) →
    cleanGo body seen true =
      (dedupDoi (seen.contains "doi") body,
       if !(seen.contains "doi") && body.any (fun l => isDoiLine l) then "doi" :: seen
       else seen,
       true) := by
  induction body with
  | nil => intro seen _; simp [cleanGo, dedupDoi]
  | cons l ls ih =>
    intro seen h
    have hAt : pyStartsWith (pyLower (pyStrip l)) "@" = false := by
      have := h l (by simp)
      simpa [isAtLine] using this
    have hRest : ∀ x ∈ ls, isAtLine x = false := fun x hx => h x (by simp [hx])
    by_cases hE : '=' ∈ (pyLower (pyStrip l)).data
    · by_cases hF : fieldPartOf (pyLower (pyStrip l)) = "doi"
      · have hd : isDoiLine l = true := by simp [isDoiLine, hE, hF]
        by_cases hS : "doi" ∈ seen
        · simp [cleanGo, dedupDoi, hAt, hE, hF, hS, hd, ih seen hRest]
        · simp [cleanGo, dedupDoi, hAt, hE, hF, hS, hd, ih ("doi" :: seen) hRest]
      · have hd : isDoiLine l = false := by simp [isDoiLine, hF]
        simp [cleanGo, dedupDoi, hAt, hE, hF, hd, ih seen hRest]
    · have hd : isDoiLine l = false := by simp [isDoiLine, hE]
      simp [cleanGo, dedupDoi, hAt, hE, hd, ih seen hRest]

theorem dedupDoi_true_eq_filter (b : List String) :
    dedupDoi true b = b.filter (fun l => !(isDoiLine l)) := by
  induction b with
  | nil => simp [dedupDoi]
  | cons l ls ih =>
    by_cases hd : isDoiLine l = true
    · simp [dedupDoi, hd, ih]
    · have hd' : isDoiLine l = false := by simpa using hd
      simp [dedupDoi, hd', ih]

theorem dedupDoi_split (b1 : List String) (hb1 : ∀ l ∈ b1, isDoiLine l = false)
    (dl : String) (hdl : isDoiLine dl = true) (b2 : List String) :
    dedupDoi false (b1 ++ dl :: b2) = b1 ++ dl :: dedupDoi true b2 := by
  induction b1 with
  | nil => simp [dedupDoi, hdl]
  | cons x xs ih =>
    have hx : isDoiLine x = false := hb1 x (by simp)
    have hxs : ∀ l ∈ xs, isDoiLine l = false := fun l hl => hb1 l (by simp [hl])
    simp [dedupDoi, hx, ih hxs]

theorem cleanGo_at_cons (atLine : String) (hAt : isAtLine atLine = true)
    (rest seen : List String) (inside : Bool) :
    cleanGo (atLine :: rest) seen inside = (atLine :: (cleanGo rest [] true).1, (cleanGo rest [] true).2) := by
  have hAt' : pyStartsWith (pyLower (pyStrip atLine)) "@" = true := by
    simpa [isAtLine] using hAt
  simp [cleanGo, hAt']

theorem cleanGo_snd_true (lines : List String) : ∀ (seen : List String),
    (cleanGo lines seen true).2.2 = true := by
  induction lines with
  | nil => intro seen; simp [cleanGo]
  | cons l ls ih =>
    intro seen
    by_cases hA : pyStartsWith (pyLower (pyStrip l)) "@" = true
    · simp [cleanGo, hA, ih]
    · by_cases hE : '=' ∈ (pyLower (pyStrip l)).data
      · by_cases hF : fieldPartOf (pyLower (pyStrip l)) = "doi"
        · by_cases hS : "doi" ∈ seen
          · simp [cleanGo, hA, hE, hF, hS, ih]
          · simp [cleanGo, hA, hE, hF, hS, ih]
        · simp [cleanGo, hA, hE, hF, ih]
      · simp [cleanGo, hA, hE, ih]

/-- C1: in an entry with two or more doi field lines, the sanitizer keeps the
first doi line and drops the later ones, passes every other line of the entry
through unchanged, resets the seen-doi state at every line that starts a new
entry, and the modelled parse of the cleaned entry body succeeds with the doi
equal to the first doi line's value. -/
theorem c1_doi_dedup_per_entry
    (pre : List String) (atLine : String) (b1 : List String) (dl : String)
    (b2 rest : List String)
    (hAt : isAtLine atLine = true)
    (hBody : ∀ l ∈ b1 ++ dl :: b2, isAtLine l = false)
    (hb1 : ∀ l ∈ b1, isDoiLine l = false)
    (hdl : isDoiLine dl = true)
    (hdup : ∃ l ∈ b2, isDoiLine l = true) :
    cleanedLines (pre ++ atLine :: ((b1 ++ dl :: b2) ++ rest))
      = cleanedLines pre ++ atLine ::
          ((b1 ++ dl :: b2.filter (fun l => !(isDoiLine l))) ++ (cleanGo rest ["doi"] true).1)
    ∧ parseEntryDoi (b1 ++ dl :: b2.filter (fun l => !(isDoiLine l)))
        = Except.ok (some (doiRawValue dl))
    ∧ (∀ (rest2 seen : List String) (inside : Bool),
        (cleanGo (atLine :: rest2) seen inside).1 = atLine :: (cleanGo rest2 [] true).1) := by
  have hBodyAny : (b1 ++ dl :: b2).any (fun l => isDoiLine l) = true := by
    simp only [List.any_eq_true]
    exact ⟨dl, by simp, hdl⟩
  have hblock := cleanGo_block (b1 ++ dl :: b2) [] hBody
  have hseen : (([] : List String).contains "doi") = false := by simp
  refine ⟨?_, ?_, ?_⟩
  · have h1 := cleanGo_append pre (atLine :: ((b1 ++ dl :: b2) ++ rest)) [] false
    have h2 := cleanGo_at_cons atLine hAt ((b1 ++ dl :: b2) ++ rest)
      (cleanGo pre [] false).2.1 (cleanGo pre [] false).2.2
    have h3 := cleanGo_append (b1 ++ dl :: b2) rest [] true
    rw [cleanedLines, h1, h2]
    rw [cleanedLines]
    congr 1
    rw [h3, hblock]
    simp only [hseen, Bool.not_false, Bool.true_and, hBodyAny, if_pos]
    congr 1
    rw [dedupDoi_split b1 hb1 dl hdl b2, dedupDoi_true_eq_filter]
  · have hfil : (b1 ++ dl :: b2.filter (fun l => !(isDoiLine l))).filter (fun l => isDoiLine l)
        = [dl] := by
      rw [List.filter_append]
      have e1 : b1.filter (fun l => isDoiLine l) = [] := by
        rw [List.filter_eq_nil_iff]
        intro a ha
        simp [hb1 a ha]
      have e2 : (b2.filter (fun l => !(isDoiLine l))).filter (fun l => isDoiLine l) = [] := by
        rw [List.filter_eq_nil_iff]
        intro a ha
        have := (List.mem_filter.mp ha).2
        simpa using this
      rw [e1, List.filter_cons_of_pos (by simpa using hdl), e2]
      simp
    rw [parseEntryDoi, hfil]
  · intro rest2 seen inside
    rw [cleanGo_at_cons atLine hAt rest2 seen inside]

theorem c1_witness :
    cleanedLines ["@article\x7ba,", "title = \x7bT\x7d,", "doi = \x7b10.1/x\x7d,",
        "doi = \x7b10.2/y\x7d,", "\x7d"]
      = ["@article\x7ba,", "title = \x7bT\x7d,", "doi = \x7b10.1/x\x7d,", "\x7d"]
    ∧ parseEntryDoi ["title = \x7bT\x7d,", "doi = \x7b10.1/x\x7d,", "\x7d"]
      = Except.ok (some "\x7b10.1/x\x7d,") := by
  have h := c1_doi_dedup_per_entry [] "@article\x7ba," ["title = \x7bT\x7d,"]
      "doi = \x7b10.1/x\x7d," ["doi = \x7b10.2/y\x7d,", "\x7d"] []
      (by decide) (by decide) (by decide) (by decide)
      ⟨"doi = \x7b10.2/y\x7d,", by decide, by decide⟩
  exact ⟨h.1.trans (by decide), h.2.1.trans (by rfl)⟩

/-- C9: the inside-entry flag of the sanitizer is set at the first line whose
stripped lowercased text begins with `@` and is never cleared afterwards, so
all later lines (also those between a closing brace and the next `@` line)
are scanned as inside an entry; in particular a stray doi line after an
entry's closing brace is dropped when a doi was already seen since the last
`@` line. -/
theorem c9_inside_entry_never_cleared :
    (∀ (lines seen : List String), (cleanGo lines seen true).2.2 = true)
    ∧ (∀ (lines seen : List String) (inside : Bool),
        (∃ l ∈ lines, isAtLine l = true) → (cleanGo lines seen inside).2.2 = true)
    ∧ cleanedLines ["@misc\x7ba,", "doi = \x7b1\x7d,", "\x7d", "doi = \x7b2\x7d,"]
        = ["@misc\x7ba,", "doi = \x7b1\x7d,", "\x7d"] := by
  refine ⟨fun lines seen => cleanGo_snd_true lines seen, ?_, by decide⟩
  intro lines
  induction lines with
  | nil => intro seen inside hex; simp at hex
  | cons l ls ih =>
    intro seen inside hex
    by_cases hA : pyStartsWith (pyLower (pyStrip l)) "@" = true
    · rw [cleanGo_at_cons l (by simpa [isAtLine] using hA) ls seen inside]
      exact cleanGo_snd_true ls []
    · obtain ⟨w, hw, hwAt⟩ := hex
      have hwls : w ∈ ls := by
        rcases List.mem_cons.mp hw with h | h
        · exfalso
          apply hA
          rw [← h] at hA ⊢
          simpa [isAtLine] using hwAt
        · exact h
      have hex' : ∃ x ∈ ls, isAtLine x = true := ⟨w, hwls, hwAt⟩
      by_cases hE : '=' ∈ (pyLower (pyStrip l)).data
      · by_cases hF : fieldPartOf (pyLower (pyStrip l)) = "doi"
        · cases inside with
          | false => simp [cleanGo, hA, hE, hF, ih seen false hex']
          | true =>
            by_cases hS : "doi" ∈ seen
            · simp [cleanGo, hA, hE, hF, hS, ih seen true hex']
            · simp [cleanGo, hA, hE, hF, hS, ih ("doi" :: seen) true hex']
        · simp [cleanGo, hA, hE, hF, ih seen inside hex']
      · simp [cleanGo, hA, hE, ih seen inside hex']

theorem c9_witness : (cleanGo ["doi = x", "@a\x7bk,"] [] false).2.2 = true :=
  c9_inside_entry_never_cleared.2.1 ["doi = x", "@a\x7bk,"] [] false
    ⟨"@a\x7bk,", by decide, by decide⟩

theorem nat_blt_true {m n : Nat} : Nat.blt m n = true ↔ m < n := by
  rw [Nat.blt_eq]

theorem nat_blt_false {m n : Nat} : Nat.blt m n = false ↔ ¬ m < n := by
  rw [Bool.eq_false_iff, Ne, Nat.blt_eq]

theorem nat_beq_true {m n : Nat} : Nat.beq m n = true ↔ m = n := by
  constructor
  · exact Nat.eq_of_beq_eq_true
  · intro h
    rw [h]
    exact Nat.beq_refl n

theorem nat_beq_false {m n : Nat} : Nat.beq m n = false ↔ m ≠ n := by
  rw [Bool.eq_false_iff, Ne]
  constructor
  · intro h he
    exact h (nat_beq_true.mpr he)
  · intro h hb
    exact h (nat_beq_true.mp hb)

theorem lexLt_asymm (a : List Char) : ∀ (b : List Char),
    lexLt a b = true → lexLt b a = false := by
  induction a with
  | nil =>
    intro b h
    cases b with
    | nil => simp [lexLt] at h
    | cons y ys => simp [lexLt]
  | cons x xs ih =>
    intro b h
    cases b with
    | nil => simp [lexLt] at h
    | cons y ys =>
      simp only [lexLt, Bool.or_eq_true, Bool.and_eq_true, nat_blt_true, nat_beq_true] at h
      simp only [lexLt, Bool.or_eq_false_iff, Bool.and_eq_false_iff, nat_blt_false,
        nat_beq_false]
      rcases h with h | ⟨hbeq, hrec⟩
      · exact ⟨by omega, Or.inl (by omega)⟩
      · exact ⟨by omega, Or.inr (ih ys hrec)⟩

theorem lexLt_conn (a : List Char) : ∀ (b : List Char),
    lexLt a b = false → lexLt b a = false → a = b := by
  induction a with
  | nil =>
    intro b h1 _
    cases b with
    | nil => rfl
    | cons y ys => simp [lexLt] at h1
  | cons x xs ih =>
    intro b h1 h2
    cases b with
    | nil => simp [lexLt] at h2
    | cons y ys =>
      simp only [lexLt, Bool.or_eq_false_iff, Bool.and_eq_false_iff, nat_blt_false,
        nat_beq_false] at h1 h2
      have hxy : x.toNat = y.toNat := by omega
      have hx : x = y := Char.ext (UInt32.toNat.inj hxy)
      rcases h1.2 with hbeq | hrec
      · exact absurd hxy hbeq
      · rcases h2.2 with hbeq' | hrec'
        · exact absurd hxy.symm hbeq'
        · rw [hx, ih ys hrec hrec']

theorem lexLt_trans (a : List Char) : ∀ (b c : List Char),
    lexLt a b = true → lexLt b c = true → lexLt a c = true := by
  induction a with
  | nil =>
    intro b c hab hbc
    cases c with
    | nil =>
      cases b with
      | nil => simp [lexLt] at hab
      | cons y ys => simp [lexLt] at hbc
    | cons z zs => simp [lexLt]
  | cons x xs ih =>
    intro b c hab hbc
    cases b with
    | nil => simp [lexLt] at hab
    | cons y ys =>
      cases c with
      | nil => simp [lexLt] at hbc
      | cons z zs =>
        simp only [lexLt, Bool.or_eq_true, Bool.and_eq_true, nat_blt_true,
          nat_beq_true] at hab hbc ⊢
        rcases hab with hab | ⟨habq, habr⟩
        · rcases hbc with hbc | ⟨hbcq, hbcr⟩
          · exact Or.inl (by omega)
          · exact Or.inl (by omega)
        · rcases hbc with hbc | ⟨hbcq, hbcr⟩
          · exact Or.inl (by omega)
          · exact Or.inr ⟨by omega, ih ys zs habr hbcr⟩

theorem strGe_total (a b : String) : strGe a b = true ∨ strGe b a = true := by
  simp only [strGe, strLt, Bool.not_eq_true']
  by_cases h : lexLt a.data b.data = true
  · exact Or.inr (lexLt_asymm a.data b.data h)
  · exact Or.inl (by simpa using h)

theorem strGe_trans (a b c : String) (hab : strGe a b = true) (hbc : strGe b c = true) :
    strGe a c = true := by
  simp only [strGe, strLt, Bool.not_eq_true'] at hab hbc ⊢
  by_cases hac : lexLt a.data c.data = true
  · exfalso
    by_cases hcb : lexLt c.data b.data = true
    · have h := lexLt_trans a.data c.data b.data hac hcb
      rw [h] at hab
      exact Bool.true_eq_false.mp hab
    · have hbc' : b.data = c.data :=
        lexLt_conn b.data c.data hbc (by simpa using hcb)
      rw [← hbc'] at hac
      rw [hac] at hab
      exact Bool.true_eq_false.mp hab
  · simpa using hac

/-- C4: the sorted entry sequence of `render_pubs` is non-increasing in the
sort key, which is the entry's `year` field when present and `"0000"`
otherwise: every entry's key is lexicographically greater than or equal to
(`strGe`, Python string comparison) the key of every later entry. -/
theorem c4_sorted_nonincreasing (entries : List (String × Entry)) :
    List.Pairwise
      (fun a b => strGe (fieldsGet a.2.fields "year" "0000")
        (fieldsGet b.2.fields "year" "0000") = true)
      (sortedByYear entries) := by
  haveI : IsTotal (String × Entry)
      (fun a b => strGe (yearKey a.2) (yearKey b.2) = true) :=
    ⟨fun a b => strGe_total (yearKey a.2) (yearKey b.2)⟩
  haveI : IsTrans (String × Entry)
      (fun a b => strGe (yearKey a.2) (yearKey b.2) = true) :=
    ⟨fun a b c => strGe_trans (yearKey a.2) (yearKey b.2) (yearKey c.2)⟩
  exact List.sorted_insertionSort
    (fun a b => strGe (yearKey a.2) (yearKey b.2) = true) entries

/-- C5: an entry lands in the rendered list of a category exactly when its
lowercased type tag is in that category's accepted set; since the accepted
sets are pairwise disjoint, an entry appears in the list of at most one
category (the first matching in iteration order, which is the unique one); an
entry whose type matches no set is in no category's list; and a category
whose list is empty contributes no output, in particular no heading line. -/
theorem c5_single_category (entries : List (String × Entry)) (e : String × Entry)
    (hl : Option String) :
    (∀ c1 ∈ categories, ∀ c2 ∈ categories,
        e ∈ catEntries entries c1.2 → e ∈ catEntries entries c2.2 → c1 = c2)
    ∧ (∀ c ∈ categories,
        (e ∈ catEntries entries c.2 ↔
          e ∈ sortedByYear entries ∧ c.2.contains (pyLower e.2.type) = true))
    ∧ ((∀ c ∈ categories, c.2.contains (pyLower e.2.type) = false) →
        ∀ c ∈ categories, e ∉ catEntries entries c.2)
    ∧ (∀ c ∈ categories, catEntries entries c.2 = [] → renderCategory hl entries c = "") := by
  have hmem : ∀ (types : List String),
      e ∈ catEntries entries types ↔
        e ∈ sortedByYear entries ∧ types.contains (pyLower e.2.type) = true := by
    intro types
    simp [catEntries, List.mem_filter]
  refine ⟨?_, fun c _ => hmem c.2, ?_, ?_⟩
  · intro c1 hc1 c2 hc2 he1 he2
    have h1 := ((hmem c1.2).mp he1).2
    have h2 := ((hmem c2.2).mp he2).2
    clear he1 he2
    simp only [categories, List.mem_cons, List.not_mem_nil, or_false] at hc1 hc2
    rcases hc1 with rfl | rfl | rfl | rfl <;> rcases hc2 with rfl | rfl | rfl | rfl <;>
      simp at h1 h2 <;>
      first
      | rfl
      | (exfalso
         rcases h1 with h1 | h1 <;> rcases h2 with h2 | h2 <;> simp_all)
      | (exfalso
         rcases h1 with h1 | h1 <;> simp_all)
      | (exfalso
         rcases h2 with h2 | h2 <;> simp_all)
      | (exfalso
         simp_all)
  · intro hnone c hc he
    have h := ((hmem c.2).mp he).2
    rw [hnone c hc] at h
    exact Bool.false_ne_true h
  · intro c _ hnil
    simp [renderCategory, hnil]

theorem c5_witness :
    ("k", ({ type := "misc", fields := [], persons := [] } : Entry)) ∉
      catEntries [("k", { type := "misc", fields := [], persons := [] })] ["article"] :=
  (c5_single_category [("k", { type := "misc", fields := [], persons := [] })]
      ("k", { type := "misc", fields := [], persons := [] }) none).2.2.1
    (by decide) ("Journal Articles", ["article"]) (by decide)

/-- C6: the rendered venue is the value of the first field present among
`journal`, `booktitle`, `publisher`, `school`, in that priority order, and
the literal `"Preprint"` when none is present; a field bound to the empty
string is present and wins over later fields of the chain. -/
theorem c6_venue_first_present (fields : List (String × String)) :
    venueOf fields =
      (firstPresent fields ["journal", "booktitle", "publisher", "school"]).getD "Preprint"
    ∧ (fieldLookup fields "journal" = some "" → venueOf fields = "") := by
  refine ⟨?_, ?_⟩
  · cases h1 : fields.find? (fun p => p.1 == "journal") with
    | some p => simp [venueOf, fieldsGet, firstPresent, h1]
    | none =>
      cases h2 : fields.find? (fun p => p.1 == "booktitle") with
      | some p => simp [venueOf, fieldsGet, firstPresent, h1, h2]
      | none =>
        cases h3 : fields.find? (fun p => p.1 == "publisher") with
        | some p => simp [venueOf, fieldsGet, firstPresent, h1, h2, h3]
        | none =>
          cases h4 : fields.find? (fun p => p.1 == "school") with
          | some p => simp [venueOf, fieldsGet, firstPresent, h1, h2, h3, h4]
          | none => simp [venueOf, fieldsGet, firstPresent, h1, h2, h3, h4]
  · intro h
    obtain ⟨p, hp, hv⟩ : ∃ p, fields.find? (fun q => q.1 == "journal") = some p ∧ p.2 = "" := by
      cases hf : fields.find? (fun q => q.1 == "journal") with
      | some p =>
        refine ⟨p, rfl, ?_⟩
        simpa [fieldLookup, hf] using h
      | none => simp [fieldLookup, hf] at h
    simp [venueOf, fieldsGet, hp, hv]

theorem c6_witness : venueOf [("journal", ""), ("booktitle", "B")] = "" :=
  (c6_venue_first_present [("journal", ""), ("booktitle", "B")]).2 (by decide)

theorem isPrefixOf_append_self (xs : List Char) (ys : List Char) :
    xs.isPrefixOf (xs ++ ys) = true := by
  induction xs with
  | nil => simp [List.isPrefixOf]
  | cons x xs ih => simp [List.isPrefixOf, ih]

theorem pyReplaceFuel_no_occ (pat rep : List Char) : ∀ (fuel : Nat) (l : List Char),
    l.length ≤ fuel → infixOf pat l = false → pyReplaceFuel pat rep fuel l = l := by
  intro fuel
  induction fuel with
  | zero =>
    intro l hlen _
    cases l with
    | nil => rfl
    | cons c cs => simp at hlen
  | succ f ih =>
    intro l hlen hocc
    cases l with
    | nil => rfl
    | cons c cs =>
      rw [show infixOf pat (c :: cs) = (pat.isPrefixOf (c :: cs) || infixOf pat cs) from rfl,
        Bool.or_eq_false_iff] at hocc
      obtain ⟨hpre, hrest⟩ := hocc
      have hstep : pyReplaceFuel pat rep (f + 1) (c :: cs) = c :: pyReplaceFuel pat rep f cs := by
        simp [pyReplaceFuel, hpre]
      rw [hstep, ih cs (by simpa using Nat.le_of_succ_le_succ hlen) hrest]

theorem pyReplace_eq_of_no_occ (s pat rep : String)
    (h : infixOf pat.data s.data = false) : pyReplace s pat rep = s := by
  rw [pyReplace, pyReplaceFuel_no_occ pat.data rep.data s.data.length s.data (le_refl _) h]

theorem pyReplace_strip_leading (pat r rep : String) (hpat : pat.data ≠ [])
    (hocc : infixOf pat.data r.data = false) :
    pyReplace (pat ++ r) pat rep = rep ++ r := by
  apply String.ext
  rw [pyReplace, String.data_append pat r, String.data_append rep r]
  cases hp : pat.data with
  | nil => exact absurd hp hpat
  | cons p ps =>
    rw [hp] at hocc
    have hlen : ((p :: ps) ++ r.data).length = (ps.length + r.data.length) + 1 := by
      simp [List.length_append]
    rw [hlen]
    have hpre : (p :: ps).isPrefixOf ((p :: ps) ++ r.data) = true :=
      isPrefixOf_append_self (p :: ps) r.data
    have hdrop : List.drop (p :: ps).length ((p :: ps) ++ r.data) = r.data :=
      List.drop_left (p :: ps) r.data
    rw [show ((p :: ps) ++ r.data) = p :: (ps ++ r.data) from rfl] at hpre hdrop ⊢
    simp only [pyReplaceFuel, hpre, List.isEmpty_cons, Bool.not_false, Bool.and_self, if_true,
      Bool.true_and, hdrop, ite_true]
    rw [pyReplaceFuel_no_occ (p :: ps) rep.data (ps.length + r.data.length) r.data
      (by omega) hocc]

/-- C2 counterexample: the claim says a doi value that does not begin with the
literal prefix `https://doi.org/` is used verbatim; but the code removes every
occurrence of the prefix anywhere in the value, so `ahttps://doi.org/b`
renders as link target `https://doi.org/ab`, not verbatim. -/
theorem c2_counterexample :
    doiSegOf [("doi", "ahttps://doi.org/b")] = " [[Link](https://doi.org/ab)]"
    ∧ doiSegOf [("doi", "ahttps://doi.org/b")]
        ≠ " [[Link](https://doi.org/ahttps://doi.org/b)]" :=
  ⟨by decide, by decide⟩

/-- C2 amended: for a present, non-empty doi value `d` the emitted segment is
` [[Link](https://doi.org/u)]` where `u` is `d` with every occurrence of the
literal `https://doi.org/` removed (Python `str.replace`); in particular a
value containing no occurrence of the prefix is used verbatim, a value that is
the prefix followed by a remainder without further occurrences is stripped
exactly once, and an absent or empty doi field emits no segment. -/
theorem c2_doi_link_replace_all (fields : List (String × String)) :
    (fieldLookup fields "doi" = none → doiSegOf fields = "")
    ∧ (∀ d, fieldLookup fields "doi" = some d →
        ((d = "" → doiSegOf fields = "")
         ∧ (d ≠ "" →
             doiSegOf fields =
               " [[Link](https://doi.org/" ++ pyReplace d doiOrgPre "" ++ ")]")
         ∧ (d ≠ "" → infixOf doiOrgPre.data d.data = false →
             doiSegOf fields = " [[Link](https://doi.org/" ++ d ++ ")]")
         ∧ (∀ r : String, d = doiOrgPre ++ r → infixOf doiOrgPre.data r.data = false →
             doiSegOf fields = " [[Link](https://doi.org/" ++ r ++ ")]"))) := by
  cases hf : fields.find? (fun p => p.1 == "doi") with
  | none =>
    refine ⟨fun _ => by simp [doiSegOf, fieldsGet, hf], fun d hd => ?_⟩
    rw [fieldLookup, hf] at hd
    simp at hd
  | some p =>
    refine ⟨fun h => ?_, fun d hd => ?_⟩
    · rw [fieldLookup, hf] at h
      simp at h
    · rw [fieldLookup, hf] at hd
      simp at hd
      subst hd
      refine ⟨fun hempty => ?_, fun hne => ?_, fun hne hocc => ?_, fun r hdr hocc => ?_⟩
      · simp [doiSegOf, fieldsGet, hf, hempty]
      · simp [doiSegOf, fieldsGet, hf, hne]
      · rw [← pyReplace_eq_of_no_occ p.2 doiOrgPre "" hocc]
        simp [doiSegOf, fieldsGet, hf, hne]
      · have hne : p.2 ≠ "" := by
          rw [hdr]
          intro hcon
          have hdata := congrArg String.data hcon
          rw [String.data_append] at hdata
          simp [doiOrgPre] at hdata
        have hrep : pyReplace p.2 doiOrgPre "" = "" ++ r := by
          rw [hdr]
          exact pyReplace_strip_leading doiOrgPre r "" (by decide) hocc
        rw [show ("" ++ r : String) = r from by simp] at hrep
        rw [← hrep]
        simp [doiSegOf, fieldsGet, hf, hne]

theorem c2_witness :
    doiSegOf [("doi", "https://doi.org/10.1/x")] = " [[Link](https://doi.org/10.1/x)]"
    ∧ doiSegOf [("doi", "10.1/x")] = " [[Link](https://doi.org/10.1/x)]" := by
  constructor
  · exact ((c2_doi_link_replace_all [("doi", "https://doi.org/10.1/x")]).2
      "https://doi.org/10.1/x" (by decide)).2.2.2 "10.1/x" (by decide) (by decide)
  · exact ((c2_doi_link_replace_all [("doi", "10.1/x")]).2 "10.1/x" (by decide)).2.2.1
      (by decide) (by decide)

/-- C3 counterexample: on the claim's one-article input the output is not the
heading and entry line followed by a single blank line — the section
separator `print("\n")` emits the newline string plus print's own
terminator, two newline characters, so the entry line is followed by two
blank lines. -/
theorem c3_counterexample :
    render_pubs true "pubs.bib"
      (Except.ok [("doe2020",
        ⟨"article",
         [("year", "2020"), ("title", "A \x7bStudy\x7d"), ("journal", "Nature"),
          ("doi", "10.1/xyz")],
         [("author", [⟨["Jane"], ["Doe"]⟩])]⟩)])
      (some "Doe")
      ≠ "### Journal Articles\n1. **Jane Doe** (2020). **A Study.** *Nature*. [[Link](https://doi.org/10.1/xyz)]\n\n" :=
  by decide

/-- C3 amended: for the bib file holding one article entry with year `2020`,
title `A {Study}`, journal `Nature`, doi `10.1/xyz` and one author Jane Doe,
rendered with highlight `Doe`, the printed output is exactly the heading line
`### Journal Articles`, the entry line, and then two blank lines (the
separator print contributes two newline characters after the entry line's
own newline). -/
theorem c3_exact_output :
    render_pubs true "pubs.bib"
      (Except.ok [("doe2020",
        ⟨"article",
         [("year", "2020"), ("title", "A \x7bStudy\x7d"), ("journal", "Nature"),
          ("doi", "10.1/xyz")],
         [("author", [⟨["Jane"], ["Doe"]⟩])]⟩)])
      (some "Doe")
      = "### Journal Articles\n1. **Jane Doe** (2020). **A Study.** *Nature*. [[Link](https://doi.org/10.1/xyz)]\n\n\n" :=
  by decide

theorem head?_dropWhile_ne (c : Char) (l : List Char) :
    (l.dropWhile (fun x => x == c)).head? ≠ some c := by
  induction l with
  | nil => simp [List.dropWhile]
  | cons a l ih =>
    by_cases ha : (a == c) = true
    · simpa [List.dropWhile, ha] using ih
    · intro h
      simp [List.dropWhile, ha] at h
      rw [h] at ha
      simp at ha

theorem getLast?_dropWhile_of_ne_nil (c : Char) (l : List Char)
    (h : l.dropWhile (fun x => x == c) ≠ []) :
    (l.dropWhile (fun x => x == c)).getLast? = l.getLast? := by
  induction l with
  | nil => simp [List.dropWhile] at h
  | cons a l ih =>
    by_cases ha : (a == c) = true
    · have hstep : List.dropWhile (fun x => x == c) (a :: l) = List.dropWhile (fun x => x == c) l := by
        simp [List.dropWhile_cons, ha]
      rw [hstep] at h ⊢
      have hl : l ≠ [] := by
        intro he
        rw [he] at h
        simp [List.dropWhile] at h
      rw [ih h]
      cases l with
      | nil => exact absurd rfl hl
      | cons b bs => rw [List.getLast?_cons_cons]
    · have hstep : List.dropWhile (fun x => x == c) (a :: l) = a :: l := by
        simp [List.dropWhile_cons, ha]
      rw [hstep]

theorem pyStripChar_getLast_ne (c : Char) (l : List Char) :
    (pyStripChar c l).getLast? ≠ some c := by
  rw [pyStripChar, List.getLast?_reverse]
  exact head?_dropWhile_ne c (l.dropWhile (fun x => x == c)).reverse

theorem pyStripChar_head_ne (c : Char) (l : List Char) :
    (pyStripChar c l).head? ≠ some c := by
  rw [pyStripChar, List.head?_reverse]
  by_cases hB : (l.dropWhile (fun x => x == c)).reverse.dropWhile (fun x => x == c) = []
  · rw [hB]
    simp
  · rw [getLast?_dropWhile_of_ne_nil c _ hB, List.getLast?_reverse]
    exact head?_dropWhile_ne c l

/-- C7 counterexample: the claim says at most one surrounding quote character
is removed from each end, so `title: ""Hello""` would yield `"Hello"` with
one double quote left on each side; Python's `strip` removes every leading
and trailing quote character, so the code yields `Hello`. -/
theorem c7_counterexample :
    get_current_page_title ["title: \"\"Hello\"\""] ≠ some "\"Hello\"" := by decide

/-- C7 amended: the first line whose stripped text starts with `title:`
yields the text after the first colon, stripped, then with every leading and
every trailing double-quote character removed in a first pass and every
leading and trailing single-quote character removed in a second pass; after
the first pass the value neither starts nor ends with a double quote, and
the final value neither starts nor ends with a single quote. -/
theorem c7_title_strip_all (lines : List String) (line : String)
    (hfind : lines.find? (fun l => pyStartsWith (pyStrip l) "title:") = some line) :
    get_current_page_title lines = some (titleValueOf line)
    ∧ (pyStripChar dquote
        (stripList ((line.data.dropWhile (fun c => !(c == ':'))).drop 1))).head? ≠ some dquote
    ∧ (pyStripChar dquote
        (stripList ((line.data.dropWhile (fun c => !(c == ':'))).drop 1))).getLast? ≠ some dquote
    ∧ (titleValueOf line).data.head? ≠ some squote
    ∧ (titleValueOf line).data.getLast? ≠ some squote := by
  refine ⟨?_, ?_, ?_, ?_, ?_⟩
  · rw [get_current_page_title, hfind]
  · exact pyStripChar_head_ne dquote _
  · exact pyStripChar_getLast_ne dquote _
  · exact pyStripChar_head_ne squote _
  · exact pyStripChar_getLast_ne squote _

theorem c7_witness : get_current_page_title ["title: \"\"Hello\"\""] = some "Hello" := by
  have h := c7_title_strip_all ["title: \"\"Hello\"\""] "title: \"\"Hello\"\"" (by decide)
  exact h.1.trans (by decide)

/-- C8: with the I/O boundary explicit, a missing bibliography file yields
exactly the one-line missing-file message naming the file; an existing file
whose parse fails yields exactly the one-line parse-error message carrying
the error description; a successful parse yields the category output; when
the interpolated text holds no newline, each error output consists of exactly
one line (a single newline character), so it contains no heading and no
entry line; the embedding is a total function, so every branch returns
normally instead of raising. -/
theorem c8_error_paths (name : String) (pr : Except String (List (String × Entry)))
    (hl : Option String) :
    (render_pubs false name pr hl
      = "**Error:** Could not find bibliography file: `" ++ name ++ "`\n")
    ∧ (∀ e, render_pubs true name (Except.error e) hl
        = "**Error parsing bib file:** " ++ e ++ "\n")
    ∧ (∀ entries, render_pubs true name (Except.ok entries) hl = renderEntries entries hl)
    ∧ (name.data.count (Char.ofNat 10) = 0 →
        (render_pubs false name pr hl).data.count (Char.ofNat 10) = 1)
    ∧ (∀ e, e.data.count (Char.ofNat 10) = 0 →
        (render_pubs true name (Except.error e) hl).data.count (Char.ofNat 10) = 1) := by
  refine ⟨rfl, fun e => rfl, fun entries => rfl, ?_, ?_⟩
  · intro h0
    have he : render_pubs false name pr hl
        = "**Error:** Could not find bibliography file: `" ++ name ++ "`\n" := rfl
    rw [he, String.data_append, String.data_append, List.count_append, List.count_append, h0]
    decide
  · intro e h0
    have he : render_pubs true name (Except.error e) hl
        = "**Error parsing bib file:** " ++ e ++ "\n" := rfl
    rw [he, String.data_append, String.data_append, List.count_append, List.count_append, h0]
    decide

theorem c8_witness :
    render_pubs false "pubs.bib" (Except.ok []) none
      = "**Error:** Could not find bibliography file: `pubs.bib`\n"
    ∧ (render_pubs false "pubs.bib" (Except.ok []) none).data.count (Char.ofNat 10) = 1 := by
  have h := c8_error_paths "pubs.bib" (Except.ok []) none
  exact ⟨h.1, h.2.2.2.1 (by decide)⟩

/-- C10: an empty highlight token is falsy in Python, so the truthiness guard
short-circuits before the substring test even though the empty string is a
substring of every name: with highlight `some ""` every author name is
rendered plain, exactly as with no highlight at all, and the whole rendered
output equals the no-highlight output. -/
theorem c10_empty_highlight :
    (∀ p : Person, formatName (some "") p = formatName none p)
    ∧ (∀ p : Person,
        formatName (some "") p
          = pyStrip (p.first_names.headD "" ++ " " ++ p.last_names.headD ""))
    ∧ (∀ name : List Char, infixOf [] name = true)
    ∧ (∀ (ex : Bool) (bf : String) (pr : Except String (List (String × Entry))),
        render_pubs ex bf pr (some "") = render_pubs ex bf pr none) := by
  have hfmt : ∀ p : Person, formatName (some "") p = formatName none p := fun p => rfl
  have hinf : ∀ name : List Char, infixOf [] name = true := by
    intro name
    induction name with
    | nil => rfl
    | cons c cs ih => simp [infixOf, List.isPrefixOf]
  refine ⟨hfmt, fun p => rfl, hinf, ?_⟩
  intro ex bf pr
  cases ex with
  | false => rfl
  | true =>
    cases pr with
    | error e => rfl
    | ok entries =>
      have hfun : formatName (some "") = formatName none := funext hfmt
      have hlinefun : renderLine (some "") = renderLine none := by
        funext e
        simp only [renderLine, hfun]
      have hcat : renderCategory (some "") = renderCategory none := by
        funext es cat
        simp only [renderCategory, hlinefun]
      simp only [render_pubs, hcat]
